import Mathlib

/-!
# Verification of the `brain` ingestion / retrieval core

Shallow embedding of the repository's core algorithms:

* `src/brain/ingest/chunker.py` — recursive structure-aware chunker
  (`chunk_document`, `_split_recursive`).
* `src/brain/ingest/pipeline.py` — ingestion controller
  (`ingest_file`, `ingest_folder`).
* `src/brain/graph/client.py` — episode segmentation / retry controller
  (`GraphClient.add_document`).
* `src/brain/chat/retriever.py` — fusion retriever
  (`retrieve_chunks`, `retrieve_fusion`).
* `src/brain/stores/docstore.py` — SQLite document/chunk store, modelled as
  association lists.

Python strings are modelled as `List Char`; `str.find`, `str.split`,
`str.strip` and `sep.join` are given explicit executable models below.
-/

namespace Brain

/-- Python `str.strip()` whitespace predicate (ASCII whitespace). -/
def isSpaceChar (c : Char) : Bool :=
  c = ' ' || c = '\t' || c = '\n' || c = '\r' || c = '\x0b' || c = '\x0c'

/-- Python `s.strip()`: remove leading and trailing whitespace. -/
def strip (s : List Char) : List Char :=
  ((s.dropWhile isSpaceChar).reverse.dropWhile isSpaceChar).reverse

/-- `pat` occurs in `s` at index `i` (Boolean test used by `find`). -/
def occursAtB (pat s : List Char) (i : Nat) : Bool :=
  (s.drop i).take pat.length == pat

/-- `pat` occurs in `s` at index `i`. -/
def OccursAt (pat s : List Char) (i : Nat) : Prop :=
  ∃ pre suf, s = pre ++ pat ++ suf ∧ pre.length = i

/-- Scan indices `start, start+1, …` (bounded by `fuel`) for the first
occurrence of `pat`. -/
def findFromAux (pat s : List Char) (start : Nat) : Nat → Option Nat
  | 0 => none
  | fuel + 1 =>
    if occursAtB pat s start then some start
    else findFromAux pat s (start + 1) fuel

/-- Python `s.find(pat, start)`: least `i ≥ start` at which `pat` occurs in
`s`, as an `Option` (`none` models the `-1` return). -/
def findFrom (pat s : List Char) (start : Nat) : Option Nat :=
  findFromAux pat s start (s.length + 1 - start)

/-- Python `sep.join(parts)`. -/
def joinSep (sep : List Char) : List (List Char) → List Char
  | [] => []
  | [x] => x
  | x :: xs => x ++ sep ++ joinSep sep xs

/-- One step of Python `text.split(sep)` (nonempty `sep`), with explicit
fuel; `fuel ≥ |s|` suffices since each step consumes at least one char. -/
def splitOnSepAux (sep : List Char) : Nat → List Char → List (List Char)
  | 0, s => [s]
  | fuel + 1, s =>
    match findFrom sep s 0 with
    | none => [s]
    | some i => s.take i :: splitOnSepAux sep fuel (s.drop (i + sep.length))

/-- Python `text.split(sep)` for nonempty `sep` (the source never calls
`split` with an empty separator: that branch character-splits instead). -/
def splitOnSep (sep s : List Char) : List (List Char) :=
  splitOnSepAux sep s.length s

/-- Flush of the accumulator in `_split_recursive`:
`merged = sep.join(current).strip()`, skipped when empty
(`if merged:` in the source). -/
def flushGroup (sep : List Char) (current : List (List Char)) : List (List Char) :=
  if current = [] then []
  else
    let merged := strip (joinSep sep current)
    if merged = [] then [] else [merged]

/-- The greedy accumulation loop of `_split_recursive`: pieces are
accumulated into `current` until adding the next piece would exceed
`chunk_size`, then flushed.  `currentLen` mirrors the Python `current_len`
bookkeeping exactly (each appended piece contributes `len(piece)+len(sep)`,
a fresh group after a flush starts at `len(piece)`). -/
def greedyAux (sep : List Char) (chunkSize : Nat)
    (current : List (List Char)) (currentLen : Nat) :
    List (List Char) → List (List Char)
  | [] => flushGroup sep current
  | piece :: rest =>
    let pieceLen := piece.length + sep.length
    if chunkSize < currentLen + pieceLen ∧ current ≠ [] then
      flushGroup sep current ++ greedyAux sep chunkSize [piece] piece.length rest
    else
      greedyAux sep chunkSize (current ++ [piece]) (currentLen + pieceLen) rest

/-- Character-level split (the `if not sep` branch of `_split_recursive`):
fixed-width slices of `chunk_size` chars, each stripped, empties dropped.
Fuel `≥ |text|` suffices for `chunk_size ≥ 1` (with `chunk_size = 0` the
Python `range(0, len, 0)` raises; the claims assume a positive size). -/
def charSplitAux (chunkSize : Nat) : Nat → List Char → List (List Char)
  | 0, _ => []
  | fuel + 1, text =>
    if text = [] then []
    else
      let part := strip (text.take chunkSize)
      let rest := charSplitAux chunkSize fuel (text.drop chunkSize)
      if part = [] then rest else part :: rest

/-- Character-level split of `_split_recursive` (terminal case). -/
def charSplit (chunkSize : Nat) (text : List Char) : List (List Char) :=
  charSplitAux chunkSize text.length text

/-- `_split_recursive(text, chunk_size, separators)`.

Structured by recursion on the separator list.  The Python
`remaining_seps = separators[1:] if len(separators) > 1 else [""]` plus the
recursive call on an over-long merged segment is rendered as: when the tail
is empty the recursive call `_split_recursive(merged, chunk_size, [""])`
(whose argument has `len(merged) > chunk_size`) reduces to the character
split, and is inlined as such. -/
def splitRecursive (chunkSize : Nat) : List (List Char) → List Char → List (List Char)
  | seps, text =>
    if text.length ≤ chunkSize then
      if strip text = [] then [] else [strip text]
    else
      match seps with
      | [] => charSplit chunkSize text
      | sep :: rest =>
        if sep = [] then charSplit chunkSize text
        else
          (greedyAux sep chunkSize [] 0 (splitOnSep sep text)).flatMap
            (fun m =>
              if m.length ≤ chunkSize then [m]
              else
                match rest with
                | [] => charSplit chunkSize m
                | _ :: _ => splitRecursive chunkSize rest m)

/-- `_SEPARATORS = ["\n\n", "\n", ". ", " ", ""]`. -/
def SEPARATORS : List (List Char) :=
  [['\n', '\n'], ['\n'], ['.', ' '], [' '], []]

/-- A chunk as produced by the chunker (`brain.models.Chunk`; the constant
`doc_id`/`metadata` pass-through fields are omitted). -/
structure Chunk where
  text : List Char
  index : Nat
  start_char : Nat
  end_char : Nat
deriving DecidableEq, Repr

/-- The offset-assignment loop of `chunk_document`: locate each raw chunk in
the original text from a forward-moving cursor (`text.find(chunk_text,
offset)`, falling back to `offset` on failure), then advance the cursor to
`max(start+1, end-chunk_overlap)`. -/
def assignOffsets (text : List Char) (chunkOverlap : Nat) :
    Nat → Nat → List (List Char) → List Chunk
  | _, _, [] => []
  | i, offset, c :: rest =>
    let start := (findFrom c text offset).getD offset
    let e := start + c.length
    ⟨c, i, start, e⟩ ::
      assignOffsets text chunkOverlap (i + 1) (max (start + 1) (e - chunkOverlap)) rest

/-- `chunk_document(doc_id, text, chunk_size, chunk_overlap, metadata)`:
empty result for whitespace-only input, otherwise split recursively and
assign offsets/indices in emission order. -/
def chunk_document (text : List Char) (chunkSize chunkOverlap : Nat) : List Chunk :=
  if strip text = [] then []
  else assignOffsets text chunkOverlap 0 0 (splitRecursive chunkSize SEPARATORS text)

/-- `Parts ms s` : the strings of `ms` occur in `s`, in order, pairwise
disjoint (each after the end of the previous one).  This is the key
specification predicate for the raw chunks produced by `_split_recursive`:
it licenses the forward-moving `text.find` cursor of `chunk_document`. -/
def Parts : List (List Char) → List Char → Prop
  | [], _ => True
  | m :: rest, s => ∃ pre suf, s = pre ++ m ++ suf ∧ Parts rest suf

/-! ## Document / chunk store (`brain/stores/docstore.py`, `vectorstore.py`)

SQLite tables and the Qdrant collection are modelled as lists of rows;
UUID generation (`uuid4`) is modelled by a fresh-id counter in the state. -/

/-- A row of the `documents` table. -/
structure DocRow where
  doc_id : Nat
  source_path : String
  content_hash : Nat
  title : List Char
  text : List Char
deriving DecidableEq, Repr

/-- A row of the `chunks` table. -/
structure ChunkRow where
  chunk_id : Nat
  doc_id : Nat
  text : List Char
  index : Nat
  start_char : Nat
  end_char : Nat
deriving DecidableEq, Repr

/-- A point in the Qdrant collection (id plus retrievable payload). -/
structure VecRow where
  chunk_id : Nat
  doc_id : Nat
  text : List Char
deriving DecidableEq, Repr

/-- Combined document-store and vector-store state. -/
structure StoreState where
  docs : List DocRow
  chunks : List ChunkRow
  vectors : List VecRow
  nextId : Nat
deriving DecidableEq, Repr

/-- `DocStore.get_document_by_path`. -/
def get_document_by_path (s : StoreState) (path : String) : Option DocRow :=
  s.docs.find? (fun r => r.source_path = path)

/-- `DocStore.get_document` (by `doc_id`). -/
def get_document (s : StoreState) (docId : Nat) : Option DocRow :=
  s.docs.find? (fun r => r.doc_id = docId)

/-- `DocStore.is_unchanged(source_path, content_hash)`. -/
def is_unchanged (s : StoreState) (path : String) (hash : Nat) : Bool :=
  match get_document_by_path s path with
  | some r => r.content_hash = hash
  | none => false

/-- `DocStore.upsert_document`: `INSERT OR REPLACE` keyed by the `doc_id`
primary key and the unique `source_path` index. -/
def upsert_document (s : StoreState) (row : DocRow) : StoreState :=
  { s with docs :=
      (s.docs.filter (fun r => r.doc_id ≠ row.doc_id ∧ r.source_path ≠ row.source_path))
        ++ [row] }

/-- `DocStore.upsert_chunks`: `INSERT OR REPLACE` keyed by `chunk_id`. -/
def upsert_chunks (s : StoreState) (rows : List ChunkRow) : StoreState :=
  { s with chunks :=
      (s.chunks.filter (fun r => ∀ n ∈ rows, r.chunk_id ≠ n.chunk_id)) ++ rows }

/-- `DocStore.delete_doc_chunks`. -/
def delete_doc_chunks (s : StoreState) (docId : Nat) : StoreState :=
  { s with chunks := s.chunks.filter (fun r => r.doc_id ≠ docId) }

/-- `VectorStore.delete_by_doc_id`. -/
def vec_delete_by_doc_id (s : StoreState) (docId : Nat) : StoreState :=
  { s with vectors := s.vectors.filter (fun r => r.doc_id ≠ docId) }

/-- `VectorStore.upsert_chunks` (upsert keyed by point id = `chunk_id`). -/
def vec_upsert_chunks (s : StoreState) (rows : List VecRow) : StoreState :=
  { s with vectors :=
      (s.vectors.filter (fun r => ∀ n ∈ rows, r.chunk_id ≠ n.chunk_id)) ++ rows }

/-! ## Ingestion pipeline (`brain/ingest/pipeline.py`) -/

/-- Errors raised by the external collaborators during ingestion. -/
inductive PipelineError
  | normFailed
  | embedFailed
  | graphFailed
deriving DecidableEq, Repr

/-- Output of a normalizer (`brain.models.Document` as produced by
`brain/ingest/normalizers.py`; every normalizer calls `compute_hash()`,
so the document carries the content hash of the source bytes). -/
structure NormDoc where
  title : List Char
  text : List Char
deriving DecidableEq, Repr

/-- One input file together with the outcomes of the external calls made
while ingesting it (normalizer, embedding service, graph extraction). -/
structure FileModel where
  path : String
  hash : Nat
  supported : Bool
  norm : Except PipelineError NormDoc
  embed : Except PipelineError Unit
  graph : Except PipelineError Unit
deriving Repr

/-- Return value of `ingest_file`: the Python function returns the
`Document` on ingestion and `None` on either skip. -/
inductive IngestResult
  | skippedUnsupported
  | skippedUnchanged
  | ingested (docId : Nat)
deriving DecidableEq, Repr

/-- The chunk rows persisted for a document: `chunk_document` output with
fresh `chunk_id`s (modelled as `base + index`). -/
def chunkRowsOf (base docId : Nat) (chks : List Chunk) : List ChunkRow :=
  chks.map (fun c => ⟨base + c.index, docId, c.text, c.index, c.start_char, c.end_char⟩)

/-- The `try: await graph_client.add_document(doc) except Exception:
log.exception(...)` step of `ingest_file`: the graph call is made only when
a client is present and initialized, and any exception is swallowed, so the
pipeline outcome `out` is returned in every case. -/
def swallowGraph (useGraph : Bool) (g : Except PipelineError Unit)
    (out : Except PipelineError IngestResult × StoreState) :
    Except PipelineError IngestResult × StoreState :=
  match useGraph, g with
  | true, .ok _ => out
  | true, .error _ => out
  | false, _ => out

/-- `ingest_file(path, docstore, vectorstore, graph_client, force=...)`.

Returns the outcome (`Except` models a propagating exception) paired with
the store state at the moment of return — a raised exception leaves the
writes already committed in place, exactly as in the source. -/
def ingest_file (f : FileModel) (force useVector useGraph : Bool)
    (chunkSize chunkOverlap : Nat) (s : StoreState) :
    Except PipelineError IngestResult × StoreState :=
  if ¬ f.supported then (.ok .skippedUnsupported, s)
  else if ¬ force ∧ is_unchanged s f.path f.hash then (.ok .skippedUnchanged, s)
  else
    match f.norm with
    | .error e => (.error e, s)
    | .ok nd =>
      -- fresh doc_id minted by the Document constructor (uuid4)
      let freshId := s.nextId
      let s1 : StoreState := { s with nextId := s.nextId + 1 }
      -- re-ingestion: reuse doc_id, delete prior chunks and vectors
      let (docId, s2) :=
        match get_document_by_path s1 f.path with
        | some existing =>
          (existing.doc_id,
           let sA := delete_doc_chunks s1 existing.doc_id
           if useVector then vec_delete_by_doc_id sA existing.doc_id else sA)
        | none => (freshId, s1)
      let chks := chunk_document nd.text chunkSize chunkOverlap
      let rows := chunkRowsOf s2.nextId docId chks
      let s3 : StoreState := { s2 with nextId := s2.nextId + chks.length }
      let s4 := upsert_chunks (upsert_document s3 ⟨docId, f.path, f.hash, nd.title, nd.text⟩) rows
      -- embed and store vectors
      if useVector ∧ chks ≠ [] then
        match f.embed with
        | .error e => (.error e, s4)
        | .ok _ =>
          let s5 := vec_upsert_chunks s4 (rows.map (fun r => ⟨r.chunk_id, r.doc_id, r.text⟩))
          -- graph extraction: any exception is caught and logged (non-fatal)
          swallowGraph useGraph f.graph (.ok (.ingested docId), s5)
      else
        swallowGraph useGraph f.graph (.ok (.ingested docId), s4)

/-- `ingest_folder`: process the (lexicographically sorted) files in
sequence; the loop body `await ingest_file(...)` has no exception handler,
so an error propagates immediately. -/
def ingest_folder (files : List FileModel) (force useVector useGraph : Bool)
    (chunkSize chunkOverlap : Nat) (s : StoreState) :
    Except PipelineError (List Nat) × StoreState :=
  match files with
  | [] => (.ok [], s)
  | f :: rest =>
    match ingest_file f force useVector useGraph chunkSize chunkOverlap s with
    | (.error e, s') => (.error e, s')
    | (.ok r, s') =>
      match ingest_folder rest force useVector useGraph chunkSize chunkOverlap s' with
      | (.error e, s'') => (.error e, s'')
      | (.ok ds, s'') =>
        (.ok (match r with | .ingested d => d :: ds | _ => ds), s'')

/-! ## Episode segmentation and retry controller (`brain/graph/client.py`) -/

/-- Outcome of one `graphiti.add_episode` call: success with node/edge
counts, a `RateLimitError`, or any other exception. -/
inductive AttemptResult
  | success (nodes edges : Nat)
  | rateLimit
  | otherError
deriving DecidableEq, Repr

/-- Observable behaviour of the per-episode retry loop: the final result
(`none` = episode failed), the number of attempts issued, and the number of
retry-delay sleeps performed. -/
structure EpisodeRun where
  result : Option (Nat × Nat)
  attemptsMade : Nat
  sleeps : Nat
deriving DecidableEq, Repr

/-- The `for attempt in range(1, max_retries + 1)` loop of
`GraphClient.add_document`: `att a` is the outcome of attempt number `a`.
A rate-limit error sleeps and retries unless this was the last attempt;
any other error aborts the episode immediately. -/
def attemptLoop (att : Nat → AttemptResult) : Nat → Nat → EpisodeRun
  | _, 0 => ⟨none, 0, 0⟩
  | a, rem + 1 =>
    match att a with
    | .success n e => ⟨some (n, e), 1, 0⟩
    | .otherError => ⟨none, 1, 0⟩
    | .rateLimit =>
      if rem = 0 then ⟨none, 1, 0⟩
      else
        let r := attemptLoop att (a + 1) rem
        ⟨r.result, r.attemptsMade + 1, r.sleeps + 1⟩

/-- Retry loop for one episode, starting at attempt 1 with `maxRetries`
attempts allowed. -/
def episodeRun (att : Nat → AttemptResult) (maxRetries : Nat) : EpisodeRun :=
  attemptLoop att 1 maxRetries

/-- Fixed-size blocks `text[i:i+E]` for `i = 0, E, 2E, …` (fuel-driven;
`fuel ≥ |text|` suffices for `E ≥ 1`). -/
def chunksOfAux (episodeSize : Nat) : Nat → List Char → List (List Char)
  | 0, _ => []
  | fuel + 1, t =>
    if t = [] then []
    else t.take episodeSize :: chunksOfAux episodeSize fuel (t.drop episodeSize)

/-- Episode splitting of `GraphClient.add_document`: a single episode when
the text fits in `episode_size`, else contiguous fixed-size blocks. -/
def splitBlocks (text : List Char) (episodeSize : Nat) : List (List Char) :=
  if text.length ≤ episodeSize then [text]
  else chunksOfAux episodeSize text.length text

/-- The `EpisodeSummary` dict returned by `GraphClient.add_document`. -/
structure EpisodeSummary where
  total_nodes : Nat
  total_edges : Nat
  episodes_processed : Nat
  episodes_failed : Nat
deriving DecidableEq, Repr

/-- The fields `GraphConfig` actually defines (config.py:63-70):
`group_id`, `num_results`, `episode_size`, `max_coroutines`,
`episode_delay` — and nothing else. -/
structure GraphConfig where
  group_id : String
  num_results : Nat
  episode_size : Nat
  max_coroutines : Nat
  episode_delay : Nat
deriving DecidableEq, Repr

/-- A Python exception raised by an attribute read. -/
inductive PyError
  | attributeError
deriving DecidableEq, Repr

/-- Pydantic attribute access on `GraphConfig` for its `int` fields:
a defined field returns its value, any other attribute name raises
`AttributeError` (pydantic `BaseModel`s neither define nor tolerate
undeclared attributes; nothing in the repository adds these fields). -/
def GraphConfig.getattr (cfg : GraphConfig) : String → Except PyError Nat
  | "num_results" => .ok cfg.num_results
  | "episode_size" => .ok cfg.episode_size
  | "max_coroutines" => .ok cfg.max_coroutines
  | "episode_delay" => .ok cfg.episode_delay
  | _ => .error .attributeError

/-- The per-episode body of `GraphClient.add_document` (client.py:120-168):
first read `cfg.graph.max_episode_retries` and `cfg.graph.episode_retry_delay`
— attribute reads that raise `AttributeError`, since `GraphConfig` defines
neither field — then run the retry loop with the obtained bound. -/
def episodeStep (cfg : GraphConfig) (att1 : Nat → AttemptResult) :
    Except PyError EpisodeRun :=
  match cfg.getattr "max_episode_retries" with
  | .error e => .error e
  | .ok maxRetries =>
    match cfg.getattr "episode_retry_delay" with
    | .error e => .error e
    | .ok _retryDelay => .ok (episodeRun att1 maxRetries)

/-- The episode loop of `GraphClient.add_document`: process the blocks in
order, accumulating `(total_nodes, total_edges, failed)`; an exception in
an episode body propagates (only `add_episode` failures are caught by the
loop, inside `episodeStep`'s retry logic). -/
def runEpisodes (cfg : GraphConfig) (att : Nat → Nat → AttemptResult) :
    Nat → List (List Char) → Nat → Nat → Nat → Except PyError (Nat × Nat × Nat)
  | _, [], nodes, edges, failed => .ok (nodes, edges, failed)
  | i, _ :: rest, nodes, edges, failed =>
    match episodeStep cfg (att i) with
    | .error e => .error e
    | .ok r =>
      match r.result with
      | some (n, e') => runEpisodes cfg att (i + 1) rest (nodes + n) (edges + e') failed
      | none => runEpisodes cfg att (i + 1) rest nodes edges (failed + 1)

/-- `GraphClient.add_document`: split into episodes (`cfg.graph.episode_size`
is a defined field, so that read succeeds), run the episode loop, and build
the summary dict with `episodes_processed = total_episodes - episodes_failed`
(client.py:173-178).  `Except` models a propagating exception. -/
def add_document (text : List Char) (cfg : GraphConfig)
    (att : Nat → Nat → AttemptResult) : Except PyError EpisodeSummary :=
  let blocks := splitBlocks text cfg.episode_size
  match runEpisodes cfg att 0 blocks 0 0 0 with
  | .error e => .error e
  | .ok (nodes, edges, failed) =>
    .ok { total_nodes := nodes
          total_edges := edges
          episodes_processed := blocks.length - failed
          episodes_failed := failed }

/-! ## Fusion retriever (`brain/chat/retriever.py`) -/

/-- One vector-search hit as returned by `VectorStore.search` (payload plus
similarity score; the score is an opaque pass-through value). -/
structure Hit where
  chunk_id : Nat
  doc_id : Nat
  text : List Char
  index : Nat
  score : Int
deriving DecidableEq, Repr

/-- `brain.models.Citation`. -/
structure CitationM where
  doc_id : Nat
  chunk_id : Nat
  source_path : String
  title : List Char
  chunk_index : Nat
  snippet : List Char
  score : Int
deriving DecidableEq, Repr

/-- A graph fact dict (opaque payload consumed from the graph backend). -/
structure GraphFact where
  fact : List Char
deriving DecidableEq, Repr

/-- The citation built for one hit in `retrieve_chunks`: the owning
document is resolved for source path and title, with empty-string
fallbacks when the document is missing (`doc.source_path if doc else ""`). -/
def buildCitation (s : StoreState) (snippetLength : Nat) (r : Hit) : CitationM :=
  match get_document s r.doc_id with
  | some doc =>
    ⟨r.doc_id, r.chunk_id, doc.source_path, doc.title, r.index,
      r.text.take snippetLength, r.score⟩
  | none =>
    ⟨r.doc_id, r.chunk_id, "", [], r.index, r.text.take snippetLength, r.score⟩

/-- `retrieve_chunks`: build a citation for every vector-search hit,
in the index's order. -/
def retrieve_chunks (hits : List Hit) (s : StoreState) (snippetLength : Nat) :
    List CitationM :=
  hits.map (buildCitation s snippetLength)

/-- Errors at query-time retrieval. -/
inductive RetrieveError
  | graphNotReady
deriving DecidableEq, Repr

/-- `GraphClient.search`: raises `RuntimeError` when the client is not
initialized, else returns the backend's facts. -/
def graph_search (isInit : Bool) (facts : List GraphFact) :
    Except RetrieveError (List GraphFact) :=
  if isInit then .ok facts else .error .graphNotReady

/-- `retrieve_fusion`: vector citations always; graph facts only when
`graph_client.is_initialized`, starting from an empty fact list. -/
def retrieve_fusion (hits : List Hit) (s : StoreState) (snippetLength : Nat)
    (graphInit : Bool) (facts : List GraphFact) :
    Except RetrieveError (List CitationM × List GraphFact) :=
  let citations := retrieve_chunks hits s snippetLength
  match (if graphInit then graph_search graphInit facts else .ok []) with
  | .error e => .error e
  | .ok gf => .ok (citations, gf)

/-! ## Lemmas and claim theorems -/

theorem swallowGraph_eq (u : Bool) (g : Except PipelineError Unit)
    (out : Except PipelineError IngestResult × StoreState) :
    swallowGraph u g out = out := by
  cases u <;> cases g <;> rfl

/-- C9: with the graph backend not initialized, fusion retrieval returns
the vector-search citations together with an empty graph-facts list and
does not raise; every vector hit yields a citation. -/
theorem retrieve_fusion_graph_uninitialized (hits : List Hit) (s : StoreState)
    (snippetLength : Nat) (facts : List GraphFact) :
    retrieve_fusion hits s snippetLength false facts
      = .ok (retrieve_chunks hits s snippetLength, []) ∧
    (retrieve_chunks hits s snippetLength).length = hits.length := by
  exact ⟨rfl, by simp [retrieve_chunks]⟩

/-- C10: a vector-search hit whose `doc_id` has no document in the store
still yields a citation, with empty source path and title; `retrieve_chunks`
emits one citation per hit. -/
theorem retrieve_chunks_missing_doc (s : StoreState) (snippetLength : Nat)
    (hits : List Hit) (h : Hit) (hmem : h ∈ hits)
    (hmiss : get_document s h.doc_id = none) :
    buildCitation s snippetLength h ∈ retrieve_chunks hits s snippetLength ∧
    (buildCitation s snippetLength h).source_path = "" ∧
    (buildCitation s snippetLength h).title = [] ∧
    (buildCitation s snippetLength h).snippet = h.text.take snippetLength ∧
    (retrieve_chunks hits s snippetLength).length = hits.length := by
  refine ⟨List.mem_map_of_mem _ hmem, ?_, ?_, ?_, by simp [retrieve_chunks]⟩ <;>
    simp [buildCitation, hmiss]

theorem retrieve_chunks_missing_doc_witness :
    (⟨2, 9, ['x', 'y'], 0, 5⟩ : Hit) ∈ [(⟨2, 9, ['x', 'y'], 0, 5⟩ : Hit)] ∧
    get_document ⟨[], [], [], 0⟩ (9 : Nat) = none ∧
    (buildCitation ⟨[], [], [], 0⟩ 1 ⟨2, 9, ['x', 'y'], 0, 5⟩
        ∈ retrieve_chunks [⟨2, 9, ['x', 'y'], 0, 5⟩] ⟨[], [], [], 0⟩ 1 ∧
      (buildCitation ⟨[], [], [], 0⟩ 1 ⟨2, 9, ['x', 'y'], 0, 5⟩).source_path = "" ∧
      (buildCitation ⟨[], [], [], 0⟩ 1 ⟨2, 9, ['x', 'y'], 0, 5⟩).title = [] ∧
      (buildCitation ⟨[], [], [], 0⟩ 1 ⟨2, 9, ['x', 'y'], 0, 5⟩).snippet
        = (['x', 'y'] : List Char).take 1 ∧
      (retrieve_chunks [⟨2, 9, ['x', 'y'], 0, 5⟩] ⟨[], [], [], 0⟩ 1).length = 1) :=
  ⟨by simp, rfl,
    retrieve_chunks_missing_doc ⟨[], [], [], 0⟩ 1 [⟨2, 9, ['x', 'y'], 0, 5⟩]
      ⟨2, 9, ['x', 'y'], 0, 5⟩ (by simp) rfl⟩

/-- C8: the result and the store state of `ingest_file` do not depend on
the outcome of the graph-extraction call: a graph failure is caught, leaves
the committed document/chunk/vector writes intact, and is not propagated. -/
theorem ingest_file_graph_failure_frame (f : FileModel)
    (force useVector useGraph : Bool) (cs ov : Nat) (s : StoreState)
    (e : PipelineError) :
    ingest_file { f with graph := .error e } force useVector useGraph cs ov s
      = ingest_file { f with graph := .ok () } force useVector useGraph cs ov s := by
  simp only [ingest_file, swallowGraph_eq]

/-- C2 counterexample: a normalizer failure on the first file of a folder
aborts the whole batch — `ingest_folder` propagates the error, the second
(healthy) file is never processed, and no list of ingested documents is
returned at all. -/
theorem ingest_folder_abort_counterexample :
    ingest_folder
        [⟨"a.txt", 1, true, .error .normFailed, .ok (), .ok ()⟩,
         ⟨"b.txt", 2, true, .ok ⟨['b'], ['h', 'i']⟩, .ok (), .ok ()⟩]
        false true false 512 64 ⟨[], [], [], 0⟩
      = (.error .normFailed, ⟨[], [], [], 0⟩) := rfl

/-- C2 (amended): an error raised while ingesting one file aborts the
folder batch — the error propagates and the remaining files are not
processed. -/
theorem ingest_folder_error_aborts (f : FileModel) (rest : List FileModel)
    (force useVector useGraph : Bool) (cs ov : Nat) (s s' : StoreState)
    (e : PipelineError)
    (h : ingest_file f force useVector useGraph cs ov s = (.error e, s')) :
    ingest_folder (f :: rest) force useVector useGraph cs ov s = (.error e, s') := by
  simp only [ingest_folder, h]

theorem ingest_folder_error_aborts_witness :
    ingest_file ⟨"a.txt", 1, true, .error .normFailed, .ok (), .ok ()⟩
        false true false 512 64 ⟨[], [], [], 0⟩
      = (.error .normFailed, ⟨[], [], [], 0⟩) ∧
    ingest_folder
        [⟨"a.txt", 1, true, .error .normFailed, .ok (), .ok ()⟩,
         ⟨"c.txt", 3, true, .ok ⟨['c'], ['h', 'i']⟩, .ok (), .ok ()⟩]
        false true false 512 64 ⟨[], [], [], 0⟩
      = (.error .normFailed, ⟨[], [], [], 0⟩) :=
  ⟨rfl,
    ingest_folder_error_aborts _ [⟨"c.txt", 3, true, .ok ⟨['c'], ['h', 'i']⟩, .ok (), .ok ()⟩]
      false true false 512 64 _ _ .normFailed rfl⟩

theorem chunksOfAux_flatten (episodeSize : Nat) (hE : 0 < episodeSize) :
    ∀ fuel t, t.length ≤ fuel → (chunksOfAux episodeSize fuel t).flatten = t := by
  intro fuel
  induction fuel with
  | zero =>
    intro t ht
    have : t = [] := List.length_eq_zero.mp (Nat.le_zero.mp ht)
    subst this; rfl
  | succ n ih =>
    intro t ht
    by_cases h : t = []
    · subst h; rfl
    · have hlen : 0 < t.length := List.length_pos.mpr h
      simp only [chunksOfAux, if_neg h, List.flatten_cons]
      rw [ih (t.drop episodeSize) (by rw [List.length_drop]; omega)]
      exact List.take_append_drop _ _

theorem chunksOfAux_length (episodeSize : Nat) (hE : 0 < episodeSize) :
    ∀ fuel t, t.length ≤ fuel →
      (chunksOfAux episodeSize fuel t).length
        = (t.length + episodeSize - 1) / episodeSize := by
  intro fuel
  induction fuel with
  | zero =>
    intro t ht
    have : t = [] := List.length_eq_zero.mp (Nat.le_zero.mp ht)
    subst this
    simp only [chunksOfAux, List.length_nil]
    rw [Nat.div_eq_of_lt (by omega)]
  | succ n ih =>
    intro t ht
    by_cases h : t = []
    · subst h
      have h5 : (episodeSize - 1) / episodeSize = 0 := Nat.div_eq_of_lt (by omega)
      simp [chunksOfAux, h5]
    · have hlen : 0 < t.length := List.length_pos.mpr h
      simp only [chunksOfAux, if_neg h, List.length_cons]
      rw [ih (t.drop episodeSize) (by rw [List.length_drop]; omega), List.length_drop]
      rcases le_or_lt t.length episodeSize with hc | hc
      · have h1 : t.length - episodeSize = 0 := by omega
        rw [h1]
        rw [Nat.div_eq_of_lt (by omega)]
        have h2 : (t.length + episodeSize - 1) / episodeSize = 1 := by
          rw [Nat.div_eq_sub_div hE (by omega), Nat.div_eq_of_lt (by omega)]
        omega
      · have h1 : t.length - episodeSize + episodeSize - 1
            = (t.length - 1 - episodeSize) + episodeSize := by omega
        have h2 : t.length + episodeSize - 1 = (t.length - 1) + episodeSize := by omega
        rw [h1, h2, Nat.add_div_right _ hE, Nat.add_div_right _ hE,
          Nat.div_eq_sub_div hE (show episodeSize ≤ t.length - 1 by omega)]

/-- C5: an episode whose graph-extraction call always raises a rate-limit
error is attempted exactly `max_retries` times, with a sleep between each
pair of consecutive attempts (`max_retries - 1` sleeps), and is then marked
failed without raising; a non-rate-limit failure aborts the episode after a
single attempt; in all cases every episode of the document is run and the
failures are only counted in the summary. -/
theorem splitBlocks_ne_nil (text : List Char) (episodeSize : Nat) :
    splitBlocks text episodeSize ≠ [] := by
  unfold splitBlocks
  split
  · simp
  · rename_i h
    obtain ⟨n, hn⟩ : ∃ n, text.length = n + 1 := ⟨text.length - 1, by omega⟩
    rw [hn, chunksOfAux]
    have hne : text ≠ [] := by
      intro heq
      rw [heq] at hn
      simp at hn
    simp [hne]

theorem add_document_raises (text : List Char) (cfg : GraphConfig)
    (att : Nat → Nat → AttemptResult) :
    add_document text cfg att = .error .attributeError := by
  unfold add_document
  rcases hbs : splitBlocks text cfg.episode_size with _ | ⟨b, rest⟩
  · exact absurd hbs (splitBlocks_ne_nil text cfg.episode_size)
  · rfl

/-- C5 (code bug): the retry policy is never exercised.  On the first
episode of every call, `add_document` reads
`cfg.graph.max_episode_retries` and `cfg.graph.episode_retry_delay`
(client.py:120-121) — fields `GraphConfig` (config.py:63-70) does not
define — so `AttributeError` is raised before the first `add_episode`
attempt and propagates to the caller: no attempt is made, nothing is
retried or slept, and no episode is counted failed. -/
theorem add_document_retry_dead_code (text : List Char) (cfg : GraphConfig)
    (att : Nat → Nat → AttemptResult) :
    add_document text cfg att = .error .attributeError ∧
    cfg.getattr "max_episode_retries" = .error .attributeError ∧
    cfg.getattr "episode_retry_delay" = .error .attributeError :=
  ⟨add_document_raises text cfg att, rfl, rfl⟩

/-- C6 (code bug): the episode segmentation itself is as claimed — for
text of length `L` and `episode_size = E` the block count is `⌈L/E⌉` when
`L > E` and 1 otherwise, and the contiguous non-overlapping blocks
concatenate back to the text — but the "returned summary" of the claim is
never returned: every `add_document` call raises `AttributeError` while
processing its first episode (client.py:120), so the summary dict of
client.py:173-178 (whose construction would satisfy
`episodes_processed = total − failed`) is dead code, contradicting the
function's own docstring ("Returns a summary dict…"). -/
theorem add_document_summary_unreachable (text : List Char)
    (cfg : GraphConfig) (att : Nat → Nat → AttemptResult)
    (hE : 0 < cfg.episode_size) :
    (splitBlocks text cfg.episode_size).length
        = (if text.length ≤ cfg.episode_size then 1
           else (text.length + cfg.episode_size - 1) / cfg.episode_size) ∧
    (splitBlocks text cfg.episode_size).flatten = text ∧
    ∀ summary : EpisodeSummary, add_document text cfg att ≠ .ok summary := by
  refine ⟨?_, ?_, ?_⟩
  · by_cases h : text.length ≤ cfg.episode_size
    · simp [splitBlocks, h]
    · simp only [splitBlocks, if_neg h]
      rw [chunksOfAux_length cfg.episode_size hE text.length text le_rfl]
  · by_cases h : text.length ≤ cfg.episode_size
    · simp [splitBlocks, h]
    · simp only [splitBlocks, if_neg h]
      exact chunksOfAux_flatten cfg.episode_size hE text.length text le_rfl
  · intro summary hok
    rw [add_document_raises] at hok
    exact Except.noConfusion hok

theorem add_document_summary_unreachable_witness :
    0 < (3 : Nat) ∧
    ((splitBlocks ['a', 'b', 'c', 'd', 'e', 'f', 'g', 'h'] 3).length
        = (if (['a', 'b', 'c', 'd', 'e', 'f', 'g', 'h'] : List Char).length ≤ 3 then 1
           else ((['a', 'b', 'c', 'd', 'e', 'f', 'g', 'h'] : List Char).length + 3 - 1) / 3) ∧
      (splitBlocks ['a', 'b', 'c', 'd', 'e', 'f', 'g', 'h'] 3).flatten
        = ['a', 'b', 'c', 'd', 'e', 'f', 'g', 'h'] ∧
      ∀ summary : EpisodeSummary,
        add_document ['a', 'b', 'c', 'd', 'e', 'f', 'g', 'h']
          ⟨"brain", 10, 3, 3, 15⟩ (fun _ _ => .success 1 1) ≠ .ok summary) :=
  ⟨by decide,
    add_document_summary_unreachable ['a', 'b', 'c', 'd', 'e', 'f', 'g', 'h']
      ⟨"brain", 10, 3, 3, 15⟩ (fun _ _ => .success 1 1) (by decide)⟩

theorem get_document_by_path_upsert_document (s : StoreState) (row : DocRow) :
    get_document_by_path (upsert_document s row) row.source_path = some row := by
  unfold get_document_by_path upsert_document
  simp only
  rw [List.find?_append]
  have h1 : (s.docs.filter
      (fun r => decide (r.doc_id ≠ row.doc_id ∧ r.source_path ≠ row.source_path))).find?
        (fun r => decide (r.source_path = row.source_path)) = none := by
    rw [List.find?_eq_none]
    intro x hx
    have h2 := (List.mem_filter.mp hx).2
    simp only [decide_eq_true_eq] at h2 ⊢
    exact h2.2
  rw [h1]
  simp [List.find?]

theorem is_unchanged_upsert_self (s : StoreState) (row : DocRow) :
    is_unchanged (upsert_document s row) row.source_path row.content_hash = true := by
  unfold is_unchanged
  rw [get_document_by_path_upsert_document]
  simp

theorem is_unchanged_upsert_chunks (s : StoreState) (rows : List ChunkRow)
    (p : String) (hs : Nat) :
    is_unchanged (upsert_chunks s rows) p hs = is_unchanged s p hs := rfl

theorem is_unchanged_vec_upsert_chunks (s : StoreState) (rows : List VecRow)
    (p : String) (hs : Nat) :
    is_unchanged (vec_upsert_chunks s rows) p hs = is_unchanged s p hs := rfl

theorem ingest_file_skips_when_unchanged (f : FileModel) (uv ug : Bool)
    (cs ov : Nat) (S : StoreState)
    (hsup : f.supported = true) (hu : is_unchanged S f.path f.hash = true) :
    ingest_file f false uv ug cs ov S = (.ok .skippedUnchanged, S) := by
  rw [ingest_file]
  simp [hsup, hu]

/-- C7: ingestion is idempotent on unchanged input — if `ingest_file`
ingested a file, calling it again on the same (unchanged) file without
`force` returns the skip signal and the store state completely unchanged
(no new chunks or vectors, stored `doc_id` untouched). -/
theorem ingest_file_idempotent_unchanged (f : FileModel) (uv ug : Bool)
    (cs ov : Nat) (s s' : StoreState) (d : Nat)
    (h : ingest_file f false uv ug cs ov s = (.ok (.ingested d), s')) :
    ingest_file f false uv ug cs ov s' = (.ok .skippedUnchanged, s') := by
  cases hsup : f.supported with
  | false => rw [ingest_file] at h; simp [hsup] at h
  | true =>
  cases hun : is_unchanged s f.path f.hash with
  | true => rw [ingest_file] at h; simp [hsup, hun] at h
  | false =>
  cases hn : f.norm with
  | error e => rw [ingest_file] at h; simp [hsup, hun, hn] at h
  | ok nd =>
  rw [ingest_file] at h
  simp only [hsup, hun, hn, swallowGraph_eq, not_true, Bool.false_eq_true,
    not_false_iff, true_and, false_and, and_true, and_false, if_true, if_false,
    ite_true, ite_false] at h
  split at h
  all_goals split at h
  all_goals first
  | (split at h
     all_goals simp only [Prod.mk.injEq, Except.ok.injEq, IngestResult.ingested.injEq,
       reduceCtorEq, false_and] at h
     all_goals obtain ⟨-, rfl⟩ := h
     all_goals
       refine ingest_file_skips_when_unchanged f uv ug cs ov _ hsup ?_
       rw [is_unchanged_vec_upsert_chunks, is_unchanged_upsert_chunks]
       exact is_unchanged_upsert_self _ _)
  | (simp only [Prod.mk.injEq, Except.ok.injEq, IngestResult.ingested.injEq,
       reduceCtorEq, false_and] at h
     obtain ⟨-, rfl⟩ := h
     refine ingest_file_skips_when_unchanged f uv ug cs ov _ hsup ?_
     rw [is_unchanged_upsert_chunks]
     exact is_unchanged_upsert_self _ _)

theorem ingest_file_idempotent_unchanged_witness :
    ingest_file ⟨"a.txt", 7, true, .ok ⟨['T'], ['h', 'i']⟩, .ok (), .ok ()⟩
        false true false 512 64 ⟨[], [], [], 0⟩
      = (.ok (.ingested 0),
         (ingest_file ⟨"a.txt", 7, true, .ok ⟨['T'], ['h', 'i']⟩, .ok (), .ok ()⟩
            false true false 512 64 ⟨[], [], [], 0⟩).2) ∧
    ingest_file ⟨"a.txt", 7, true, .ok ⟨['T'], ['h', 'i']⟩, .ok (), .ok ()⟩
        false true false 512 64
        (ingest_file ⟨"a.txt", 7, true, .ok ⟨['T'], ['h', 'i']⟩, .ok (), .ok ()⟩
          false true false 512 64 ⟨[], [], [], 0⟩).2
      = (.ok .skippedUnchanged,
         (ingest_file ⟨"a.txt", 7, true, .ok ⟨['T'], ['h', 'i']⟩, .ok (), .ok ()⟩
            false true false 512 64 ⟨[], [], [], 0⟩).2) :=
  ⟨rfl, ingest_file_idempotent_unchanged _ true false 512 64 ⟨[], [], [], 0⟩ _ 0 rfl⟩

theorem chunkRowsOf_doc_id (base dId : Nat) (chks : List Chunk) :
    ∀ c ∈ chunkRowsOf base dId chks, c.doc_id = dId := by
  intro c hc
  obtain ⟨x, -, rfl⟩ := List.mem_map.mp hc
  rfl

theorem filter_restore {α : Type} (doc : α → Nat) (l : List α) (d : Nat)
    (q : α → Bool) (rows : List α) (hrows : ∀ c ∈ rows, doc c = d) :
    ((l.filter (fun r => doc r ≠ d)).filter q ++ rows).filter (fun c => doc c = d)
      = rows := by
  rw [List.filter_append]
  have h1 : ((l.filter (fun r => doc r ≠ d)).filter q).filter
      (fun c => doc c = d) = [] := by
    rw [List.filter_eq_nil_iff]
    intro x hx
    have h2 := (List.mem_filter.mp (List.mem_filter.mp hx).1).2
    simp only [decide_eq_true_eq] at h2 ⊢
    exact h2
  rw [h1, List.nil_append, List.filter_eq_self]
  intro a ha
  simp only [decide_eq_true_eq]
  exact hrows a ha

/-- C3: re-ingesting a modified file at a previously ingested path reuses
the prior `doc_id`, and afterwards the store holds exactly the chunks (and
vectors) of the new chunking for that `doc_id` — old chunks and vectors are
deleted before the new ones are inserted, never old plus new. -/
theorem ingest_file_reingest_replaces (f : FileModel) (ug : Bool) (cs ov : Nat)
    (s : StoreState) (r : DocRow) (nd : NormDoc)
    (hsup : f.supported = true)
    (hnorm : f.norm = .ok nd)
    (hembed : f.embed = .ok ())
    (hfind : get_document_by_path s f.path = some r)
    (hch : ¬ r.content_hash = f.hash) :
    (ingest_file f false true ug cs ov s).1 = .ok (.ingested r.doc_id) ∧
    ((ingest_file f false true ug cs ov s).2.chunks.filter
        (fun c => c.doc_id = r.doc_id))
      = chunkRowsOf (s.nextId + 1) r.doc_id (chunk_document nd.text cs ov) ∧
    ((ingest_file f false true ug cs ov s).2.vectors.filter
        (fun v => v.doc_id = r.doc_id))
      = (chunkRowsOf (s.nextId + 1) r.doc_id (chunk_document nd.text cs ov)).map
          (fun c => VecRow.mk c.chunk_id c.doc_id c.text) := by
  have hun : is_unchanged s f.path f.hash = false := by
    unfold is_unchanged
    rw [hfind]
    simp [hch]
  have hfind1 : get_document_by_path { s with nextId := s.nextId + 1 } f.path = some r :=
    hfind
  rw [ingest_file]
  simp only [hsup, hun, hnorm, hembed, hfind1, swallowGraph_eq, not_true,
    Bool.false_eq_true, not_false_iff, true_and, false_and, and_true, and_false,
    if_true, if_false, ite_true, ite_false]
  by_cases hc : chunk_document nd.text cs ov = []
  · simp only [hc, ne_eq, not_true_eq_false, and_false, ite_false, if_false]
    refine ⟨trivial, ?_, ?_⟩
    · simp only [upsert_chunks, upsert_document, vec_delete_by_doc_id,
        delete_doc_chunks, chunkRowsOf, List.map_nil, List.append_nil]
      rw [List.filter_eq_nil_iff]
      intro x hx
      have h2 := (List.mem_filter.mp (List.mem_filter.mp hx).1).2
      simp only [decide_eq_true_eq] at h2 ⊢
      exact h2
    · simp only [upsert_chunks, upsert_document, vec_delete_by_doc_id,
        delete_doc_chunks, chunkRowsOf, List.map_nil]
      rw [List.filter_eq_nil_iff]
      intro x hx
      have h2 := (List.mem_filter.mp hx).2
      simp only [decide_eq_true_eq] at h2 ⊢
      exact h2
  · simp only [hc, ne_eq, not_false_eq_true, and_true, ite_true, if_true]
    refine ⟨trivial, ?_, ?_⟩
    · simp only [vec_upsert_chunks, upsert_chunks, upsert_document,
        vec_delete_by_doc_id, delete_doc_chunks]
      exact filter_restore (fun c => c.doc_id) s.chunks r.doc_id _ _
        (chunkRowsOf_doc_id _ _ _)
    · simp only [vec_upsert_chunks, upsert_chunks, upsert_document,
        vec_delete_by_doc_id, delete_doc_chunks]
      refine filter_restore (fun v => v.doc_id) s.vectors r.doc_id _ _ ?_
      intro a ha
      obtain ⟨x, hx, rfl⟩ := List.mem_map.mp ha
      exact chunkRowsOf_doc_id _ _ _ x hx

theorem ingest_file_reingest_replaces_witness :
    (¬ (7 : Nat) = 8) ∧
    ((ingest_file ⟨"a.txt", 8, true, .ok ⟨['T'], ['h', 'i']⟩, .ok (), .ok ()⟩
        false true false 512 64
        ⟨[⟨5, "a.txt", 7, ['T'], ['o', 'l', 'd']⟩], [⟨9, 5, ['o', 'l', 'd'], 0, 0, 3⟩],
          [⟨9, 5, ['o', 'l', 'd']⟩], 10⟩).1 = .ok (.ingested 5) ∧
      ((ingest_file ⟨"a.txt", 8, true, .ok ⟨['T'], ['h', 'i']⟩, .ok (), .ok ()⟩
          false true false 512 64
          ⟨[⟨5, "a.txt", 7, ['T'], ['o', 'l', 'd']⟩], [⟨9, 5, ['o', 'l', 'd'], 0, 0, 3⟩],
            [⟨9, 5, ['o', 'l', 'd']⟩], 10⟩).2.chunks.filter (fun c => c.doc_id = 5))
        = chunkRowsOf 11 5 (chunk_document ['h', 'i'] 512 64) ∧
      ((ingest_file ⟨"a.txt", 8, true, .ok ⟨['T'], ['h', 'i']⟩, .ok (), .ok ()⟩
          false true false 512 64
          ⟨[⟨5, "a.txt", 7, ['T'], ['o', 'l', 'd']⟩], [⟨9, 5, ['o', 'l', 'd'], 0, 0, 3⟩],
            [⟨9, 5, ['o', 'l', 'd']⟩], 10⟩).2.vectors.filter (fun v => v.doc_id = 5))
        = (chunkRowsOf 11 5 (chunk_document ['h', 'i'] 512 64)).map
            (fun c => VecRow.mk c.chunk_id c.doc_id c.text)) :=
  ⟨by decide,
    ingest_file_reingest_replaces
      ⟨"a.txt", 8, true, .ok ⟨['T'], ['h', 'i']⟩, .ok (), .ok ()⟩ false 512 64
      ⟨[⟨5, "a.txt", 7, ['T'], ['o', 'l', 'd']⟩], [⟨9, 5, ['o', 'l', 'd'], 0, 0, 3⟩],
        [⟨9, 5, ['o', 'l', 'd']⟩], 10⟩
      ⟨5, "a.txt", 7, ['T'], ['o', 'l', 'd']⟩ ⟨['T'], ['h', 'i']⟩
      rfl rfl rfl rfl (by decide)⟩

/-! ### Chunker correctness: ordered disjoint substrings -/

theorem strip_infix (s : List Char) : ∃ w₁ w₂, s = w₁ ++ strip s ++ w₂ := by
  refine ⟨s.takeWhile isSpaceChar,
    ((s.dropWhile isSpaceChar).reverse.takeWhile isSpaceChar).reverse, ?_⟩
  have h2 : (s.dropWhile isSpaceChar).reverse
      = (s.dropWhile isSpaceChar).reverse.takeWhile isSpaceChar
        ++ (s.dropWhile isSpaceChar).reverse.dropWhile isSpaceChar :=
    (List.takeWhile_append_dropWhile isSpaceChar _).symm
  have h3 : s.dropWhile isSpaceChar
      = strip s ++ ((s.dropWhile isSpaceChar).reverse.takeWhile isSpaceChar).reverse := by
    have h4 := congrArg List.reverse h2
    rw [List.reverse_reverse, List.reverse_append] at h4
    exact h4
  calc s = s.takeWhile isSpaceChar ++ s.dropWhile isSpaceChar :=
        (List.takeWhile_append_dropWhile isSpaceChar s).symm
    _ = s.takeWhile isSpaceChar
        ++ (strip s ++ ((s.dropWhile isSpaceChar).reverse.takeWhile isSpaceChar).reverse) := by
        rw [← h3]
    _ = _ := by rw [← List.append_assoc]

theorem occursAtB_of_occursAt (pat s : List Char) (i : Nat) (h : OccursAt pat s i) :
    occursAtB pat s i = true := by
  obtain ⟨pre, suf, rfl, rfl⟩ := h
  unfold occursAtB
  rw [List.append_assoc, List.drop_left, List.take_left]
  simp

theorem occursAtB_decomp (pat s : List Char) (i : Nat) (hne : pat ≠ [])
    (h : occursAtB pat s i = true) :
    s = s.take i ++ pat ++ s.drop (i + pat.length) ∧ i + pat.length ≤ s.length := by
  unfold occursAtB at h
  have h1 : (s.drop i).take pat.length = pat := by simpa using h
  have h2 : pat.length ≤ s.length - i := by
    have h3 := congrArg List.length h1
    simp only [List.length_take, List.length_drop] at h3
    omega
  have hplen : 0 < pat.length := List.length_pos.mpr hne
  refine ⟨?_, by omega⟩
  have h4 : s.drop i = pat ++ s.drop (i + pat.length) := by
    conv_lhs => rw [← List.take_append_drop pat.length (s.drop i)]
    rw [h1, List.drop_drop]
  conv_lhs => rw [← List.take_append_drop i s, h4]
  rw [List.append_assoc]

theorem occursAt_of_occursAtB (pat s : List Char) (i : Nat) (hne : pat ≠ [])
    (h : occursAtB pat s i = true) : OccursAt pat s i := by
  obtain ⟨hdec, hle⟩ := occursAtB_decomp pat s i hne h
  have hplen : 0 < pat.length := List.length_pos.mpr hne
  exact ⟨s.take i, s.drop (i + pat.length), hdec, by
    rw [List.length_take]; omega⟩

theorem findFromAux_some (pat s : List Char) :
    ∀ fuel start q, findFromAux pat s start fuel = some q →
      start ≤ q ∧ occursAtB pat s q = true := by
  intro fuel
  induction fuel with
  | zero => intro start q h; simp [findFromAux] at h
  | succ n ih =>
    intro start q h
    rw [findFromAux] at h
    by_cases hb : occursAtB pat s start
    · rw [if_pos hb] at h
      cases h
      exact ⟨le_rfl, hb⟩
    · rw [if_neg hb] at h
      obtain ⟨h1, h2⟩ := ih (start + 1) q h
      exact ⟨by omega, h2⟩

theorem findFromAux_complete (pat s : List Char) :
    ∀ fuel start p, occursAtB pat s p = true → start ≤ p → p < start + fuel →
      ∃ q, findFromAux pat s start fuel = some q ∧ q ≤ p := by
  intro fuel
  induction fuel with
  | zero => intro start p _ h1 h2; omega
  | succ n ih =>
    intro start p hp h1 h2
    rw [findFromAux]
    by_cases hb : occursAtB pat s start
    · exact ⟨start, by rw [if_pos hb], h1⟩
    · rw [if_neg hb]
      have hne : start ≠ p := by
        intro heq
        rw [heq] at hb
        exact hb hp
      obtain ⟨q, hq, hqp⟩ := ih (start + 1) p hp (by omega) (by omega)
      exact ⟨q, hq, hqp⟩

theorem findFrom_spec (pat s : List Char) (start p : Nat)
    (hp : occursAtB pat s p = true) (hsp : start ≤ p) (hps : p ≤ s.length) :
    ∃ q, findFrom pat s start = some q ∧ start ≤ q ∧ q ≤ p ∧
      occursAtB pat s q = true := by
  obtain ⟨q, hq, hqp⟩ :=
    findFromAux_complete pat s (s.length + 1 - start) start p hp hsp (by omega)
  obtain ⟨h1, h2⟩ := findFromAux_some pat s _ start q hq
  exact ⟨q, hq, h1, hqp, h2⟩

theorem parts_prepend (ms : List (List Char)) (a s : List Char) (h : Parts ms s) :
    Parts ms (a ++ s) := by
  cases ms with
  | nil => trivial
  | cons m rest =>
    obtain ⟨pre, suf, rfl, hp⟩ := h
    exact ⟨a ++ pre, suf, by simp [List.append_assoc], hp⟩

theorem parts_concat (l₁ l₂ : List (List Char)) (a b : List Char)
    (h₁ : Parts l₁ a) (h₂ : Parts l₂ b) : Parts (l₁ ++ l₂) (a ++ b) := by
  induction l₁ generalizing a with
  | nil => simpa using parts_prepend l₂ a b h₂
  | cons m rest ih =>
    obtain ⟨pre, suf, rfl, hp⟩ := h₁
    exact ⟨pre, suf ++ b, by simp [List.append_assoc], ih suf hp⟩

theorem parts_glue (l₁ l₂ : List (List Char)) (pre m suf : List Char)
    (h₁ : Parts l₁ m) (h₂ : Parts l₂ suf) :
    Parts (l₁ ++ l₂) (pre ++ m ++ suf) := by
  rw [List.append_assoc]
  exact parts_prepend _ pre _ (parts_concat l₁ l₂ m suf h₁ h₂)

theorem parts_flatMap (f : List Char → List (List Char)) :
    ∀ (ms : List (List Char)) (s : List Char), Parts ms s →
      (∀ m ∈ ms, Parts (f m) m) → Parts (ms.flatMap f) s := by
  intro ms
  induction ms with
  | nil => intro s _ _; trivial
  | cons m rest ih =>
    intro s hp hf
    obtain ⟨pre, suf, rfl, hrest⟩ := hp
    rw [List.flatMap_cons]
    exact parts_glue _ _ pre m suf (hf m (by simp))
      (ih suf hrest (fun x hx => hf x (by simp [hx])))

theorem joinSep_cons (sep x : List Char) (xs : List (List Char)) (h : xs ≠ []) :
    joinSep sep (x :: xs) = x ++ sep ++ joinSep sep xs := by
  cases xs with
  | nil => exact absurd rfl h
  | cons y ys => rfl

theorem joinSep_append (sep : List Char) (l₁ l₂ : List (List Char))
    (h₁ : l₁ ≠ []) (h₂ : l₂ ≠ []) :
    joinSep sep (l₁ ++ l₂) = joinSep sep l₁ ++ sep ++ joinSep sep l₂ := by
  induction l₁ with
  | nil => exact absurd rfl h₁
  | cons x xs ih =>
    cases xs with
    | nil =>
      rw [List.singleton_append, joinSep_cons sep x l₂ h₂]
      rfl
    | cons y ys =>
      rw [List.cons_append,
        joinSep_cons sep x ((y :: ys) ++ l₂) (by simp),
        joinSep_cons sep x (y :: ys) (by simp),
        ih (by simp)]
      simp [List.append_assoc]

theorem splitOnSepAux_ne_nil (sep : List Char) (fuel : Nat) (s : List Char) :
    splitOnSepAux sep fuel s ≠ [] := by
  cases fuel with
  | zero => simp [splitOnSepAux]
  | succ n =>
    rw [splitOnSepAux]
    cases findFrom sep s 0 <;> simp

theorem joinSep_splitOnSepAux (sep : List Char) (hsep : sep ≠ []) :
    ∀ fuel s, s.length ≤ fuel → joinSep sep (splitOnSepAux sep fuel s) = s := by
  intro fuel
  induction fuel with
  | zero => intro s _; rfl
  | succ n ih =>
    intro s hs
    rw [splitOnSepAux]
    cases hf : findFrom sep s 0 with
    | none => rfl
    | some i =>
      have hocc := (findFromAux_some sep s _ 0 i hf).2
      obtain ⟨hdec, hle⟩ := occursAtB_decomp sep s i hsep hocc
      have hsl : 0 < sep.length := List.length_pos.mpr hsep
      rw [joinSep_cons _ _ _ (splitOnSepAux_ne_nil _ _ _),
        ih _ (by rw [List.length_drop]; omega)]
      conv_rhs => rw [hdec]

theorem splitOnSep_reconstruct (sep : List Char) (hsep : sep ≠ [])
    (s : List Char) : joinSep sep (splitOnSep sep s) = s :=
  joinSep_splitOnSepAux sep hsep s.length s le_rfl

theorem flushGroup_parts (sep : List Char) (current : List (List Char)) :
    Parts (flushGroup sep current) (joinSep sep current) := by
  unfold flushGroup
  split
  · trivial
  · dsimp only
    split
    · trivial
    · obtain ⟨w₁, w₂, hw⟩ := strip_infix (joinSep sep current)
      exact ⟨w₁, w₂, hw, trivial⟩

theorem greedyAux_parts (sep : List Char) (cs : Nat) :
    ∀ (pieces current : List (List Char)) (cl : Nat),
      Parts (greedyAux sep cs current cl pieces)
        (joinSep sep (current ++ pieces)) := by
  intro pieces
  induction pieces with
  | nil =>
    intro current cl
    rw [greedyAux]
    simpa using flushGroup_parts sep current
  | cons piece rest ih =>
    intro current cl
    rw [greedyAux]
    split
    · rename_i hcond
      have hcur : current ≠ [] := hcond.2
      have hjoin : joinSep sep (current ++ piece :: rest)
          = joinSep sep current ++ sep ++ joinSep sep (piece :: rest) :=
        joinSep_append sep current (piece :: rest) hcur (by simp)
      rw [hjoin]
      have h2 : Parts (greedyAux sep cs [piece] piece.length rest)
          (joinSep sep (piece :: rest)) := by
        simpa using ih [piece] piece.length
      have h3 : Parts (greedyAux sep cs [piece] piece.length rest)
          (sep ++ joinSep sep (piece :: rest)) := parts_prepend _ sep _ h2
      have h4 := parts_concat _ _ _ _ (flushGroup_parts sep current) h3
      simpa [List.append_assoc] using h4
    · have h2 := ih (current ++ [piece]) (cl + (piece.length + sep.length))
      simpa [List.append_assoc] using h2

theorem charSplitAux_parts (cs : Nat) :
    ∀ fuel text, Parts (charSplitAux cs fuel text) text := by
  intro fuel
  induction fuel with
  | zero => intro t; trivial
  | succ n ih =>
    intro t
    rw [charSplitAux]
    split
    · trivial
    · dsimp only
      obtain ⟨w₁, w₂, hw⟩ := strip_infix (t.take cs)
      have hrec : Parts (charSplitAux cs n (t.drop cs)) (t.drop cs) := ih _
      split
      · have h5 : Parts (charSplitAux cs n (t.drop cs)) (t.take cs ++ t.drop cs) :=
          parts_prepend _ _ _ hrec
        rwa [List.take_append_drop] at h5
      · refine ⟨w₁, w₂ ++ t.drop cs, ?_, parts_prepend _ _ _ hrec⟩
        conv_lhs => rw [← List.take_append_drop cs t, hw]
        simp [List.append_assoc]

theorem charSplit_parts (cs : Nat) (text : List Char) :
    Parts (charSplit cs text) text :=
  charSplitAux_parts cs text.length text

/-- The raw chunks produced by `_split_recursive` occur in the input text
in order and pairwise disjoint. -/
theorem splitRecursive_parts (cs : Nat) :
    ∀ (seps : List (List Char)) (text : List Char),
      Parts (splitRecursive cs seps text) text := by
  intro seps
  induction seps with
  | nil =>
    intro text
    rw [splitRecursive]
    split
    · split
      · trivial
      · obtain ⟨w₁, w₂, hw⟩ := strip_infix text
        exact ⟨w₁, w₂, hw, trivial⟩
    · exact charSplit_parts cs text
  | cons sep rest ih =>
    intro text
    rw [splitRecursive]
    split
    · split
      · trivial
      · obtain ⟨w₁, w₂, hw⟩ := strip_infix text
        exact ⟨w₁, w₂, hw, trivial⟩
    · split
      · exact charSplit_parts cs text
      · rename_i hlen hsep
        refine parts_flatMap _ _ _ ?_ ?_
        · have h1 := greedyAux_parts sep cs (splitOnSep sep text) [] 0
          rw [List.nil_append] at h1
          rwa [splitOnSep_reconstruct sep hsep text] at h1
        · intro m _
          split
          · exact ⟨[], [], by simp, trivial⟩
          · cases rest with
            | nil => exact charSplit_parts cs m
            | cons r rs => exact ih m

theorem flushGroup_mem_ne_nil (sep : List Char) (current : List (List Char)) :
    ∀ c ∈ flushGroup sep current, c ≠ [] := by
  intro c hc
  unfold flushGroup at hc
  split at hc
  · simp at hc
  · dsimp only at hc
    split at hc
    · simp at hc
    · rename_i hne
      simp only [List.mem_singleton] at hc
      subst hc
      exact hne

theorem greedyAux_mem_ne_nil (sep : List Char) (cs : Nat) :
    ∀ (pieces current : List (List Char)) (cl : Nat) (c : List Char),
      c ∈ greedyAux sep cs current cl pieces → c ≠ [] := by
  intro pieces
  induction pieces with
  | nil =>
    intro current cl c hc
    rw [greedyAux] at hc
    exact flushGroup_mem_ne_nil sep current c hc
  | cons piece rest ih =>
    intro current cl c hc
    rw [greedyAux] at hc
    split at hc
    · rcases List.mem_append.mp hc with h | h
      · exact flushGroup_mem_ne_nil sep current c h
      · exact ih [piece] piece.length c h
    · exact ih (current ++ [piece]) (cl + (piece.length + sep.length)) c hc

theorem charSplitAux_mem_ne_nil (cs : Nat) :
    ∀ (fuel : Nat) (t c : List Char), c ∈ charSplitAux cs fuel t → c ≠ [] := by
  intro fuel
  induction fuel with
  | zero => intro t c hc; simp [charSplitAux] at hc
  | succ n ih =>
    intro t c hc
    rw [charSplitAux] at hc
    split at hc
    · simp at hc
    · dsimp only at hc
      split at hc
      · exact ih _ c hc
      · rename_i hne
        rcases List.mem_cons.mp hc with rfl | h
        · exact hne
        · exact ih _ c h

theorem splitRecursive_mem_ne_nil (cs : Nat) :
    ∀ (seps : List (List Char)) (text c : List Char),
      c ∈ splitRecursive cs seps text → c ≠ [] := by
  intro seps
  induction seps with
  | nil =>
    intro text c hc
    rw [splitRecursive] at hc
    split at hc
    · split at hc
      · simp at hc
      · rename_i hne
        rcases List.mem_singleton.mp hc with rfl
        exact hne
    · exact charSplitAux_mem_ne_nil cs _ text c hc
  | cons sep rest ih =>
    intro text c hc
    rw [splitRecursive] at hc
    split at hc
    · split at hc
      · simp at hc
      · rename_i hne
        rcases List.mem_singleton.mp hc with rfl
        exact hne
    · split at hc
      · exact charSplitAux_mem_ne_nil cs _ text c hc
      · obtain ⟨m, hm, hcm⟩ := List.mem_flatMap.mp hc
        by_cases hml : m.length ≤ cs
        · rw [if_pos hml] at hcm
          rcases List.mem_singleton.mp hcm with rfl
          exact greedyAux_mem_ne_nil sep cs _ [] 0 c hm
        · rw [if_neg hml] at hcm
          cases rest with
          | nil => exact charSplitAux_mem_ne_nil cs _ m c hcm
          | cons r rs => exact ih m c hcm

/-- Core invariant of the offset-assignment loop: as long as the remaining
raw chunks occur, in order and disjointly, in the suffix of `text` past some
position `d ≥ offset`, every produced chunk has a valid span. -/
theorem assignOffsets_spans (text : List Char) (ov : Nat) :
    ∀ (raw : List (List Char)) (i offset d : Nat),
      offset ≤ d → Parts raw (text.drop d) → (∀ c ∈ raw, c ≠ []) →
      ∀ ch ∈ assignOffsets text ov i offset raw,
        ch.start_char < ch.end_char ∧ ch.end_char ≤ text.length := by
  intro raw
  induction raw with
  | nil => intro i offset d _ _ _ ch hch; simp [assignOffsets] at hch
  | cons c rest ih =>
    intro i offset d hod hp hne ch hch
    obtain ⟨pre, suf, hdec, hrest⟩ := hp
    have hcne : c ≠ [] := hne c (by simp)
    have hclen : 0 < c.length := List.length_pos.mpr hcne
    have hlen : text.length - d = pre.length + c.length + suf.length := by
      have h6 := congrArg List.length hdec
      simp [List.length_drop] at h6
      omega
    have hdle : d + pre.length + c.length ≤ text.length := by
      by_cases hgt : d ≤ text.length
      · omega
      · exfalso
        have h7 : text.drop d = [] := List.drop_eq_nil_of_le (by omega)
        rw [h7] at hdec
        have h8 := congrArg List.length hdec
        simp at h8
        omega
    have hocc : OccursAt c text (d + pre.length) := by
      refine ⟨text.take d ++ pre, suf, ?_, by rw [List.length_append, List.length_take]; omega⟩
      conv_lhs => rw [← List.take_append_drop d text, hdec]
      simp [List.append_assoc]
    have hoccB : occursAtB c text (d + pre.length) = true :=
      occursAtB_of_occursAt _ _ _ hocc
    obtain ⟨q, hq, hq1, hq2, hq3⟩ :=
      findFrom_spec c text offset (d + pre.length) hoccB (by omega) (by omega)
    obtain ⟨-, hqle⟩ := occursAtB_decomp c text q hcne hq3
    rw [assignOffsets] at hch
    simp only [hq, Option.getD_some] at hch
    rcases List.mem_cons.mp hch with rfl | hmem
    · refine ⟨?_, ?_⟩
      · show q < q + c.length
        omega
      · exact hqle
    · have hsuf : suf = text.drop (d + pre.length + c.length) := by
        have h9 : text.drop (d + pre.length + c.length)
            = (text.drop d).drop (pre.length + c.length) := by
          rw [List.drop_drop]
          congr 1
          omega
        rw [h9, hdec, show pre ++ c ++ suf = (pre ++ c) ++ suf from by
          rw [List.append_assoc]]
        rw [show pre.length + c.length = (pre ++ c).length from by
          rw [List.length_append]]
        rw [List.drop_left]
      refine ih (i + 1) (max (q + 1) (q + c.length - ov))
        (d + pre.length + c.length) ?_ ?_ (fun x hx => hne x (by simp [hx])) ch hmem
      · have hb1 : q + 1 ≤ d + pre.length + c.length := by omega
        have hb2 : q + c.length - ov ≤ d + pre.length + c.length := by omega
        omega
      · rw [← hsuf]
        exact hrest

theorem assignOffsets_indices (text : List Char) (ov : Nat) :
    ∀ (raw : List (List Char)) (i offset : Nat),
      (assignOffsets text ov i offset raw).map Chunk.index
        = List.range' i raw.length := by
  intro raw
  induction raw with
  | nil => intro i offset; rfl
  | cons c rest ih =>
    intro i offset
    rw [assignOffsets]
    simp only [List.map_cons, List.length_cons, List.range'_succ]
    exact congrArg (i :: ·) (ih (i + 1) _)

theorem assignOffsets_length (text : List Char) (ov : Nat) :
    ∀ (raw : List (List Char)) (i offset : Nat),
      (assignOffsets text ov i offset raw).length = raw.length := by
  intro raw
  induction raw with
  | nil => intro i offset; rfl
  | cons c rest ih =>
    intro i offset
    rw [assignOffsets]
    simp only [List.length_cons]
    exact congrArg (· + 1) (ih (i + 1) _)

/-- C1: every chunk of `chunk_document` satisfies
`0 ≤ start_char < end_char ≤ len(text)` (`start_char` is a `Nat`, so
`0 ≤ start_char` holds by type), and the chunk indices are contiguous
`0..n-1` in emission order. -/
theorem chunk_document_spans_and_indices (text : List Char)
    (chunkSize chunkOverlap : Nat) (_h : 0 < chunkSize) :
    (∀ c ∈ chunk_document text chunkSize chunkOverlap,
      c.start_char < c.end_char ∧ c.end_char ≤ text.length) ∧
    (chunk_document text chunkSize chunkOverlap).map Chunk.index
      = List.range (chunk_document text chunkSize chunkOverlap).length := by
  unfold chunk_document
  split
  · simp
  · constructor
    · intro c hc
      refine assignOffsets_spans text chunkOverlap
        (splitRecursive chunkSize SEPARATORS text) 0 0 0 le_rfl ?_
        (fun x hx => splitRecursive_mem_ne_nil chunkSize SEPARATORS text x hx) c hc
      rw [List.drop_zero]
      exact splitRecursive_parts chunkSize SEPARATORS text
    · rw [assignOffsets_indices, assignOffsets_length, List.range_eq_range']

theorem chunk_document_spans_and_indices_witness :
    0 < 5 ∧
    ((∀ c ∈ chunk_document
        ['h', 'e', 'l', 'l', 'o', ' ', 'w', 'o', 'r', 'l', 'd'] 5 2,
      c.start_char < c.end_char ∧
        c.end_char ≤ (['h', 'e', 'l', 'l', 'o', ' ', 'w', 'o', 'r', 'l', 'd'] : List Char).length) ∧
    (chunk_document ['h', 'e', 'l', 'l', 'o', ' ', 'w', 'o', 'r', 'l', 'd'] 5 2).map Chunk.index
      = List.range (chunk_document
          ['h', 'e', 'l', 'l', 'o', ' ', 'w', 'o', 'r', 'l', 'd'] 5 2).length) :=
  ⟨by decide,
    chunk_document_spans_and_indices
      ['h', 'e', 'l', 'l', 'o', ' ', 'w', 'o', 'r', 'l', 'd'] 5 2 (by decide)⟩

/-- C4 counterexample: with `chunk_size = 4`, `chunk_overlap = 2` the text
`"aaaa bbbb"` yields two chunks whose spans are `[0,4)` and `[5,9)` — the
second chunk's span begins at or after the first one's end, so consecutive
chunks do not overlap even though `chunk_overlap > 0`. -/
theorem chunk_overlap_counterexample :
    (chunk_document ['a', 'a', 'a', 'a', ' ', 'b', 'b', 'b', 'b'] 4 2).map
        (fun c => (c.start_char, c.end_char)) = [(0, 4), (5, 9)] ∧
    (0 : Nat) < 2 ∧
    ¬ ((chunk_document ['a', 'a', 'a', 'a', ' ', 'b', 'b', 'b', 'b'] 4 2).getD 1
          ⟨[], 0, 0, 0⟩).start_char
        < ((chunk_document ['a', 'a', 'a', 'a', ' ', 'b', 'b', 'b', 'b'] 4 2).getD 0
          ⟨[], 0, 0, 0⟩).end_char := by
  refine ⟨by decide, by decide, by decide⟩

/-- Relation between the spans of consecutive chunks: the next chunk starts
at or after the advanced search cursor `max(start+1, end-overlap)`. -/
def CursorStep (ov : Nat) (a b : Chunk) : Prop :=
  max (a.start_char + 1) (a.end_char - ov) ≤ b.start_char

theorem assignOffsets_head_start (text : List Char) (ov : Nat)
    (raw : List (List Char)) (i offset : Nat) :
    ∀ ch ∈ (assignOffsets text ov i offset raw).head?, offset ≤ ch.start_char := by
  intro ch hch
  cases raw with
  | nil => simp [assignOffsets] at hch
  | cons c rest =>
    rw [assignOffsets] at hch
    simp only [List.head?_cons, Option.mem_def, Option.some.injEq] at hch
    subst hch
    dsimp only
    cases hf : findFrom c text offset with
    | none => simp [hf]
    | some q =>
      simp only [hf, Option.getD_some]
      exact (findFromAux_some c text _ offset q hf).1

theorem assignOffsets_chain (text : List Char) (ov : Nat) :
    ∀ (raw : List (List Char)) (i offset : Nat),
      List.Chain' (CursorStep ov) (assignOffsets text ov i offset raw) := by
  intro raw
  induction raw with
  | nil => intro i offset; simp [assignOffsets]
  | cons c rest ih =>
    intro i offset
    rw [assignOffsets]
    refine List.Chain'.cons' (ih (i + 1) _) ?_
    intro y hy
    have h1 := assignOffsets_head_start text ov rest (i + 1)
      (max (((findFrom c text offset).getD offset) + 1)
        (((findFrom c text offset).getD offset) + c.length - ov)) y hy
    exact h1

/-- C4 (amended): consecutive chunks need not share source text.  The
splitter emits disjoint segments; `chunk_overlap` only bounds how far back
the forward-moving search cursor may start, so for consecutive chunks it
holds that `start_{i+1} ≥ max(start_i + 1, end_i − chunk_overlap)` — the
next span may begin at or after the previous span's end. -/
theorem chunk_document_cursor_monotone (text : List Char)
    (chunkSize chunkOverlap : Nat) :
    List.Chain' (CursorStep chunkOverlap)
      (chunk_document text chunkSize chunkOverlap) := by
  unfold chunk_document
  split
  · simp
  · exact assignOffsets_chain text chunkOverlap _ 0 0

end Brain
